import Mathlib

/-
Verification of the Windows-1252 codec (decode.ts / encode module).

Modelling conventions:
* A JavaScript string is a list of UTF-16 code units (`List Nat`), so that
  lone surrogates are representable exactly as in the host runtime.
* The byte input of `decode` is a `List Int`: the source accepts
  `Uint8Array | number[]`, and a `number[]` may hold integers outside
  [0, 255], which the decoder validates explicitly.
* A thrown error versus a returned value is modelled by `JsResult`; an
  error carries the thrown message (a Lean `String` when it is pure ASCII,
  a unit list when it can embed arbitrary code points).
* The two object-literal lookup tables are association lists in source
  order; property access is `List.lookup`.
-/

set_option maxRecDepth 8000

/-- Error-handling mode shared by the decoder and the encoder. -/
inductive Mode where
  | replacement
  | fatal
  deriving DecidableEq, Repr

/-- Outcome of a call that either returns a value or throws an error. -/
inductive JsResult (ε α : Type) where
  | ok (value : α)
  | err (error : ε)
  deriving DecidableEq, Repr

/-- True exactly when the call threw. -/
def JsResult.isErr {ε α : Type} : JsResult ε α → Bool
  | .ok _ => false
  | .err _ => true

/-- The decode table of decode.ts: byte in [0x80, 0x9F] to Unicode code
point, in source order.  0x81, 0x8D, 0x8F, 0x90, 0x9D are absent. -/
def WINDOWS_1252_MAP : List (Nat × Nat) :=
  [(0x80, 0x20ac),
   (0x82, 0x201a),
   (0x83, 0x0192),
   (0x84, 0x201e),
   (0x85, 0x2026),
   (0x86, 0x2020),
   (0x87, 0x2021),
   (0x88, 0x02c6),
   (0x89, 0x2030),
   (0x8a, 0x0160),
   (0x8b, 0x2039),
   (0x8c, 0x0152),
   (0x8e, 0x017d),
   (0x91, 0x2018),
   (0x92, 0x2019),
   (0x93, 0x201c),
   (0x94, 0x201d),
   (0x95, 0x2022),
   (0x96, 0x2013),
   (0x97, 0x2014),
   (0x98, 0x02dc),
   (0x99, 0x2122),
   (0x9a, 0x0161),
   (0x9b, 0x203a),
   (0x9c, 0x0153),
   (0x9e, 0x017e),
   (0x9f, 0x0178)]

/-- The encode table of the encode module: Unicode code point back to
Windows-1252 byte, in source order. -/
def UNICODE_TO_WINDOWS_1252 : List (Nat × Nat) :=
  [(0x20ac, 0x80),
   (0x201a, 0x82),
   (0x0192, 0x83),
   (0x201e, 0x84),
   (0x2026, 0x85),
   (0x2020, 0x86),
   (0x2021, 0x87),
   (0x02c6, 0x88),
   (0x2030, 0x89),
   (0x0160, 0x8a),
   (0x2039, 0x8b),
   (0x0152, 0x8c),
   (0x017d, 0x8e),
   (0x2018, 0x91),
   (0x2019, 0x92),
   (0x201c, 0x93),
   (0x201d, 0x94),
   (0x2022, 0x95),
   (0x2013, 0x96),
   (0x2014, 0x97),
   (0x02dc, 0x98),
   (0x2122, 0x99),
   (0x0161, 0x9a),
   (0x203a, 0x9b),
   (0x0153, 0x9c),
   (0x017e, 0x9e),
   (0x0178, 0x9f)]

/-- The five byte values in [0x80, 0x9F] with no Windows-1252 mapping. -/
def undefinedBytes : List Nat := [0x81, 0x8d, 0x8f, 0x90, 0x9d]

/-- Base-16 rendering of a natural number, most significant digit first,
mirroring the semantics of toString(16) on a nonnegative integer. -/
def toHexLower (n : Nat) : List Char :=
  Nat.toDigits 16 n

/-- Uppercase hexadecimal rendering: toString(16) then toUpperCase. -/
def toHexUpper (n : Nat) : List Char :=
  (toHexLower n).map Char.toUpper

/-- padStart(4, the zero character): left-pad to at least four characters. -/
def padStart4 (l : List Char) : List Char :=
  if 4 ≤ l.length then l else List.replicate (4 - l.length) '0' ++ l

/-- UTF-16 code units of one code point, as String.fromCodePoint builds
them: one unit below 0x10000, otherwise a surrogate pair. -/
def utf16OfCodePoint (c : Nat) : List Nat :=
  if c < 0x10000 then [c]
  else [0xd800 + (c - 0x10000) / 0x400, 0xdc00 + (c - 0x10000) % 0x400]

/-- Code units of a pure-ASCII message fragment. -/
def asciiUnits (s : String) : List Nat :=
  s.data.map Char.toNat

/-- Decoding of one input element, mirroring the body of the decode loop:
range validation, then the three-zone classification. -/
def decodeOne (mode : Mode) (byte : Int) : JsResult String Nat :=
  if byte < 0 ∨ 255 < byte then
    match mode with
    | .fatal => .err ("Invalid byte value: " ++ toString byte ++ " (must be 0-255)")
    | .replacement => .ok 0xfffd
  else
    let b := byte.toNat
    if b < 0x80 then
      .ok b
    else if b ≤ 0x9f then
      match List.lookup b WINDOWS_1252_MAP with
      | some codePoint => .ok codePoint
      | none =>
        match mode with
        | .fatal => .err ("Invalid Windows-1252 byte: 0x" ++ String.mk (toHexUpper b))
        | .replacement => .ok 0xfffd
    else
      .ok b

/-- The decode loop over the whole input: left to right, one code point
per element, aborting on the first thrown error in fatal mode. -/
def decodeList (mode : Mode) : List Int → JsResult String (List Nat)
  | [] => .ok []
  | byte :: rest =>
    match decodeOne mode byte with
    | .err e => .err e
    | .ok c =>
      match decodeList mode rest with
      | .err e => .err e
      | .ok cs => .ok (c :: cs)

/-- Options object of decode: an optional mode, default replacement. -/
structure DecodeOptions where
  mode : Option Mode := none

/-- The public decode entry point.  The returned JavaScript string is the
flattening of the code-point array through String.fromCodePoint, i.e. the
UTF-16 code units of the produced code points. -/
def decode (bytes : List Int) (options : DecodeOptions := {}) :
    JsResult String (List Nat) :=
  match decodeList (options.mode.getD .replacement) bytes with
  | .err e => .err e
  | .ok chars => .ok (chars.map utf16OfCodePoint).flatten

/-- The thrown message for an unencodable code point, as UTF-16 units:
the rendered character, then U+ and the uppercase hex code point padded
to at least four digits. -/
def encodeErrorMessage (codePoint : Nat) : List Nat :=
  asciiUnits "Character \x27" ++ utf16OfCodePoint codePoint ++
    asciiUnits "\x27 (U+" ++ (padStart4 (toHexUpper codePoint)).map Char.toNat ++
    asciiUnits ") cannot be encoded in Windows-1252"

/-- Encoding of one code point, mirroring the classification of the
encode loop body. -/
def encodeCodePoint (mode : Mode) (codePoint : Nat) : JsResult (List Nat) Nat :=
  if codePoint < 0x80 then
    .ok codePoint
  else if 0xa0 ≤ codePoint ∧ codePoint ≤ 0xff then
    .ok codePoint
  else
    match List.lookup codePoint UNICODE_TO_WINDOWS_1252 with
    | some win1252Byte => .ok win1252Byte
    | none =>
      match mode with
      | .fatal => .err (encodeErrorMessage codePoint)
      | .replacement => .ok 0x3f

/-- Surrogate-pair test used by codePointAt: a high surrogate unit
immediately followed by a low surrogate unit. -/
def isSurrogatePair (u v : Nat) : Bool :=
  decide (0xd800 ≤ u) && decide (u ≤ 0xdbff) &&
    decide (0xdc00 ≤ v) && decide (v ≤ 0xdfff)

/-- The combined code point of a surrogate pair. -/
def combineSurrogates (u v : Nat) : Nat :=
  0x10000 + (u - 0xd800) * 0x400 + (v - 0xdc00)

/-- The Unicode scalar values consumed by the encode loop, in order:
codePointAt semantics, i.e. a high surrogate unit immediately followed by
a low surrogate unit is combined into one code point and the loop index
skips the low half; every other unit (lone surrogates included) is one
code point by itself. -/
def codePoints : List Nat → List Nat
  | [] => []
  | [u] => [u]
  | u :: v :: rest =>
    if isSurrogatePair u v then combineSurrogates u v :: codePoints rest
    else u :: codePoints (v :: rest)

/-- The classification half of the encode loop: every consumed code point
is classified and its byte emitted in order, aborting on the first thrown
error in fatal mode. -/
def encodeCodePoints (mode : Mode) : List Nat → JsResult (List Nat) (List Nat)
  | [] => .ok []
  | cp :: rest =>
    match encodeCodePoint mode cp with
    | .err e => .err e
    | .ok b =>
      match encodeCodePoints mode rest with
      | .err e => .err e
      | .ok bs => .ok (b :: bs)

/-- The whole encode loop over the code units of the input string.  The
source interleaves the two halves in one pass; since extracting the next
code point never throws, consuming all code points first and classifying
each in order yields the same emitted bytes and the same first error. -/
def encodeList (mode : Mode) (l : List Nat) : JsResult (List Nat) (List Nat) :=
  encodeCodePoints mode (codePoints l)

/-- Options object of encode: an optional mode, default fatal. -/
structure EncodeOptions where
  mode : Option Mode := none

/-- The public encode entry point, over the UTF-16 code units of the
input string. -/
def encode (str : List Nat) (options : EncodeOptions := {}) :
    JsResult (List Nat) (List Nat) :=
  encodeList (options.mode.getD .fatal) str

/-- Composition encode after decode, decode in replacement mode and
encode in the given mode; the value when both calls return. -/
def encodeAfterDecode (m : Mode) (bytes : List Int) : Option (List Nat) :=
  match decode bytes { mode := some .replacement } with
  | .err _ => none
  | .ok units =>
    match encode units { mode := some m } with
    | .err _ => none
    | .ok out => some out


/-- The sixteen lowercase hexadecimal digit characters, in value order. -/
def lowerHexChars : List Char :=
  (List.range 16).map Nat.digitChar

/-- The sixteen uppercase hexadecimal digit characters, in value order. -/
def upperHexChars : List Char :=
  lowerHexChars.map Char.toUpper

/-- Whether the input string starts with a low surrogate unit. -/
def startsWithLowSurrogate : List Nat → Bool
  | [] => false
  | v :: _ => decide (0xdc00 ≤ v) && decide (v ≤ 0xdfff)

theorem jsResult_ok_of_isErr_false {ε α : Type} {r : JsResult ε α}
    (h : r.isErr = false) : ∃ a, r = .ok a := by
  cases r with
  | ok a => exact ⟨a, rfl⟩
  | err e => simp [JsResult.isErr] at h

theorem lookup_mem {l : List (Nat × Nat)} {k v : Nat}
    (h : List.lookup k l = some v) : (k, v) ∈ l := by
  induction l with
  | nil => simp [List.lookup] at h
  | cons p rest ih =>
    obtain ⟨k1, v1⟩ := p
    by_cases hk : k = k1
    · subst hk
      simp [List.lookup] at h
      simp [h]
    · have hbeq : (k == k1) = false := by simp [hk]
      simp only [List.lookup, hbeq] at h
      exact List.mem_cons_of_mem _ (ih h)

theorem win1252_entry_facts :
    ∀ p ∈ WINDOWS_1252_MAP,
      0x80 ≤ p.1 ∧ p.1 ≤ 0x9f ∧ p.1 ∉ undefinedBytes ∧
      0x100 ≤ p.2 ∧ p.2 < 0x10000 ∧
      List.lookup p.2 UNICODE_TO_WINDOWS_1252 = some p.1 := by
  decide

theorem encode_entry_facts :
    ∀ p ∈ UNICODE_TO_WINDOWS_1252,
      0x100 ≤ p.1 ∧ p.1 < 0xd800 ∧ p.2 ≤ 0xff ∧ p.2 ∉ undefinedBytes := by
  decide

theorem surrogate_lookup_none {c : Nat} (h : 0xd800 ≤ c) :
    List.lookup c UNICODE_TO_WINDOWS_1252 = none := by
  cases hl : List.lookup c UNICODE_TO_WINDOWS_1252 with
  | none => rfl
  | some b =>
    have hmem := lookup_mem hl
    have := (encode_entry_facts _ hmem).2.1
    omega

theorem decodeOne_replacement_ok (byte : Int) :
    ∃ c, decodeOne .replacement byte = .ok c ∧ c < 0x10000 := by
  unfold decodeOne
  by_cases h1 : byte < 0 ∨ 255 < byte
  · exact ⟨0xfffd, by simp [h1], by norm_num⟩
  · rw [if_neg h1]
    by_cases h2 : byte.toNat < 0x80
    · exact ⟨byte.toNat, by simp [h2], by omega⟩
    · by_cases h3 : byte.toNat ≤ 0x9f
      · cases hl : List.lookup byte.toNat WINDOWS_1252_MAP with
        | some cp =>
          refine ⟨cp, by simp [h2, h3, hl], ?_⟩
          exact (win1252_entry_facts _ (lookup_mem hl)).2.2.2.2.1
        | none => exact ⟨0xfffd, by simp [h2, h3, hl], by norm_num⟩
      · refine ⟨byte.toNat, by simp [h2, h3], by omega⟩

theorem decodeOne_ok_bmp {mode : Mode} {byte : Int} {c : Nat}
    (h : decodeOne mode byte = .ok c) : c < 0x10000 := by
  unfold decodeOne at h
  by_cases h1 : byte < 0 ∨ 255 < byte
  · rw [if_pos h1] at h
    cases mode <;> simp_all <;> omega
  · rw [if_neg h1] at h
    by_cases h2 : byte.toNat < 0x80
    · simp [h2] at h; omega
    · by_cases h3 : byte.toNat ≤ 0x9f
      · simp only [h2, if_false, h3, if_true] at h
        cases hl : List.lookup byte.toNat WINDOWS_1252_MAP with
        | some cp =>
          rw [hl] at h
          have := (win1252_entry_facts _ (lookup_mem hl)).2.2.2.2.1
          simp at h
          omega
        | none =>
          rw [hl] at h
          cases mode <;> simp_all <;> omega
      · simp [h2, h3] at h; omega

theorem decodeList_replacement_ok (bytes : List Int) :
    ∃ cs, decodeList .replacement bytes = .ok cs ∧
      cs.length = bytes.length ∧ ∀ c ∈ cs, c < 0x10000 := by
  induction bytes with
  | nil => exact ⟨[], rfl, rfl, by simp⟩
  | cons b rest ih =>
    obtain ⟨c, hc, hbmp⟩ := decodeOne_replacement_ok b
    obtain ⟨cs, hcs, hlen, hall⟩ := ih
    refine ⟨c :: cs, ?_, by simp [hlen], ?_⟩
    · simp [decodeList, hc, hcs]
    · intro x hx
      rcases List.mem_cons.mp hx with h | h
      · subst h; exact hbmp
      · exact hall x h

theorem flatten_utf16 {cs : List Nat} (h : ∀ c ∈ cs, c < 0x10000) :
    (cs.map utf16OfCodePoint).flatten = cs := by
  induction cs with
  | nil => rfl
  | cons c rest ih =>
    have hc : c < 0x10000 := h c (List.mem_cons_self c rest)
    simp only [List.map_cons, List.flatten_cons, utf16OfCodePoint, if_pos hc]
    rw [ih fun x hx => h x (List.mem_cons_of_mem _ hx)]
    rfl

theorem decodeList_append {mode : Mode} {xs ys : List Int} {as bs : List Nat}
    (hx : decodeList mode xs = .ok as) (hy : decodeList mode ys = .ok bs) :
    decodeList mode (xs ++ ys) = .ok (as ++ bs) := by
  induction xs generalizing as with
  | nil =>
    simp [decodeList] at hx
    simp [hx, hy]
  | cons x rest ih =>
    simp only [decodeList] at hx
    cases h1 : decodeOne mode x with
    | err e => rw [h1] at hx; exact absurd hx (by simp)
    | ok c =>
      rw [h1] at hx
      cases h2 : decodeList mode rest with
      | err e => rw [h2] at hx; exact absurd hx (by simp)
      | ok cs =>
        rw [h2] at hx
        simp at hx
        subst hx
        simp [List.cons_append, decodeList, h1, ih h2]

theorem decodeList_fatal_err_of_mem {bytes : List Int} {b : Int}
    (hb : b ∈ bytes) (herr : (decodeOne .fatal b).isErr = true) :
    (decodeList .fatal bytes).isErr = true := by
  induction bytes with
  | nil => simp at hb
  | cons x rest ih =>
    rcases List.mem_cons.mp hb with h | h
    · cases hx : decodeOne .fatal x with
      | err e => simp [decodeList, hx, JsResult.isErr]
      | ok c => rw [h, hx] at herr; simp [JsResult.isErr] at herr
    · cases hx : decodeOne .fatal x with
      | err e => simp [decodeList, hx, JsResult.isErr]
      | ok c =>
        have := ih h
        cases hr : decodeList .fatal rest with
        | err e => simp [decodeList, hx, hr, JsResult.isErr]
        | ok cs => rw [hr] at this; simp [JsResult.isErr] at this

theorem encodeCodePoint_ok_byte {mode : Mode} {cp b : Nat}
    (h : encodeCodePoint mode cp = .ok b) : b ≤ 0xff ∧ b ∉ undefinedBytes := by
  unfold encodeCodePoint at h
  by_cases h1 : cp < 0x80
  · rw [if_pos h1] at h
    simp at h
    subst h
    refine ⟨by omega, ?_⟩
    simp [undefinedBytes]
    omega
  · rw [if_neg h1] at h
    by_cases h2 : 0xa0 ≤ cp ∧ cp ≤ 0xff
    · rw [if_pos h2] at h
      simp at h
      subst h
      refine ⟨by omega, ?_⟩
      simp [undefinedBytes]
      omega
    · rw [if_neg h2] at h
      cases hl : List.lookup cp UNICODE_TO_WINDOWS_1252 with
      | some w =>
        rw [hl] at h
        simp at h
        subst h
        have := encode_entry_facts _ (lookup_mem hl)
        exact ⟨this.2.2.1, this.2.2.2⟩
      | none =>
        rw [hl] at h
        cases mode with
        | fatal => simp at h
        | replacement =>
          simp at h
          subst h
          exact ⟨by omega, by decide⟩

theorem encodeCodePoint_replacement_ok (cp : Nat) :
    ∃ b, encodeCodePoint .replacement cp = .ok b := by
  unfold encodeCodePoint
  by_cases h1 : cp < 0x80
  · exact ⟨cp, by simp [h1]⟩
  · by_cases h2 : 0xa0 ≤ cp ∧ cp ≤ 0xff
    · exact ⟨cp, by simp [h1, h2]⟩
    · cases hl : List.lookup cp UNICODE_TO_WINDOWS_1252 with
      | some w => exact ⟨w, by simp [h1, h2, hl]⟩
      | none => exact ⟨0x3f, by simp [h1, h2, hl]⟩

theorem encodeCodePoint_unencodable {cp : Nat} (h1 : ¬ cp < 0x80)
    (h2 : ¬ (0xa0 ≤ cp ∧ cp ≤ 0xff))
    (h3 : List.lookup cp UNICODE_TO_WINDOWS_1252 = none) :
    encodeCodePoint .fatal cp = .err (encodeErrorMessage cp) ∧
      encodeCodePoint .replacement cp = .ok 0x3f := by
  constructor
  · unfold encodeCodePoint
    rw [if_neg h1, if_neg h2, h3]
  · unfold encodeCodePoint
    rw [if_neg h1, if_neg h2, h3]

theorem digitChar_mem_lower : ∀ k < 16, Nat.digitChar k ∈ lowerHexChars := by
  decide

theorem toDigitsCore_mem :
    ∀ (f n : Nat) (ds : List Char), (∀ ch ∈ ds, ch ∈ lowerHexChars) →
      ∀ ch ∈ Nat.toDigitsCore 16 f n ds, ch ∈ lowerHexChars := by
  intro f
  induction f with
  | zero =>
    intro n ds hds ch hch
    rw [Nat.toDigitsCore] at hch
    exact hds ch hch
  | succ f ih =>
    intro n ds hds ch hch
    simp only [Nat.toDigitsCore] at hch
    have hd : Nat.digitChar (n % 16) ∈ lowerHexChars :=
      digitChar_mem_lower _ (Nat.mod_lt _ (by norm_num))
    have hcons : ∀ c ∈ Nat.digitChar (n % 16) :: ds, c ∈ lowerHexChars := by
      intro c hc
      rcases List.mem_cons.mp hc with h | h
      · rw [h]; exact hd
      · exact hds c h
    split at hch
    · exact hcons ch hch
    · exact ih _ _ hcons ch hch

theorem toUpper_hex_mem : ∀ c ∈ lowerHexChars, Char.toUpper c ∈ upperHexChars := by
  decide

theorem toHexUpper_mem {n : Nat} : ∀ ch ∈ toHexUpper n, ch ∈ upperHexChars := by
  intro ch hch
  unfold toHexUpper toHexLower Nat.toDigits at hch
  rcases List.mem_map.mp hch with ⟨c0, hc0, hup⟩
  have h0 : c0 ∈ lowerHexChars := toDigitsCore_mem _ _ [] (by simp) c0 hc0
  rw [← hup]
  exact toUpper_hex_mem c0 h0

theorem padStart4_length (l : List Char) : 4 ≤ (padStart4 l).length := by
  unfold padStart4
  split
  · assumption
  · simp
    omega

theorem padStart4_mem {l : List Char} {ch : Char} (h : ch ∈ padStart4 l) :
    ch = '0' ∨ ch ∈ l := by
  unfold padStart4 at h
  split at h
  · exact Or.inr h
  · rcases List.mem_append.mp h with h | h
    · exact Or.inl (List.eq_of_mem_replicate h)
    · exact Or.inr h

theorem hexPadded_mem {n : Nat} :
    ∀ ch ∈ padStart4 (toHexUpper n), ch ∈ upperHexChars := by
  intro ch hch
  rcases padStart4_mem hch with h | h
  · rw [h]; decide
  · exact toHexUpper_mem ch h

theorem utf16_pair {c : Nat} (h1 : 0x10000 ≤ c) (h2 : c ≤ 0x10ffff) :
    utf16OfCodePoint c =
      [0xd800 + (c - 0x10000) / 0x400, 0xdc00 + (c - 0x10000) % 0x400] ∧
    isSurrogatePair (0xd800 + (c - 0x10000) / 0x400)
      (0xdc00 + (c - 0x10000) % 0x400) = true ∧
    combineSurrogates (0xd800 + (c - 0x10000) / 0x400)
      (0xdc00 + (c - 0x10000) % 0x400) = c := by
  refine ⟨?_, ?_, ?_⟩
  · unfold utf16OfCodePoint
    rw [if_neg (by omega)]
  · simp only [isSurrogatePair, Bool.and_eq_true, decide_eq_true_eq]
    omega
  · unfold combineSurrogates
    omega

theorem encodeCodePoints_nil (mode : Mode) : encodeCodePoints mode [] = .ok [] := rfl

theorem encodeCodePoints_cons (mode : Mode) (cp : Nat) (rest : List Nat) :
    encodeCodePoints mode (cp :: rest) =
      match encodeCodePoint mode cp with
      | .err e => .err e
      | .ok b =>
        match encodeCodePoints mode rest with
        | .err e => .err e
        | .ok bs => .ok (b :: bs) := rfl

theorem codePoints_nil : codePoints [] = [] := rfl

theorem codePoints_one (u : Nat) : codePoints [u] = [u] := rfl

theorem codePoints_cons2 (u v : Nat) (rest : List Nat) :
    codePoints (u :: v :: rest) =
      if isSurrogatePair u v then combineSurrogates u v :: codePoints rest
      else u :: codePoints (v :: rest) := rfl

theorem encodeList_nil (mode : Mode) : encodeList mode [] = .ok [] := rfl

theorem encodeList_one (mode : Mode) (u : Nat) :
    encodeList mode [u] = match encodeCodePoint mode u with
      | .err e => .err e
      | .ok b => .ok [b] := by
  show encodeCodePoints mode [u] = _
  rw [encodeCodePoints_cons]
  cases encodeCodePoint mode u <;> rfl

theorem encodeCodePoints_replacement_ok (cl : List Nat) :
    ∃ out, encodeCodePoints .replacement cl = .ok out ∧ out.length = cl.length := by
  induction cl with
  | nil => exact ⟨[], rfl, rfl⟩
  | cons cp rest ih =>
    obtain ⟨b, hb⟩ := encodeCodePoint_replacement_ok cp
    obtain ⟨out, hout, hlen⟩ := ih
    exact ⟨b :: out, by rw [encodeCodePoints_cons, hb, hout], by simp [hlen]⟩

theorem encodeList_replacement_ok (l : List Nat) :
    ∃ out, encodeList .replacement l = .ok out ∧
      out.length = (codePoints l).length :=
  encodeCodePoints_replacement_ok (codePoints l)

theorem encodeCodePoints_ok_bytes {mode : Mode} :
    ∀ (cl out : List Nat), encodeCodePoints mode cl = .ok out →
      ∀ b ∈ out, b ≤ 0xff ∧ b ∉ undefinedBytes := by
  intro cl
  induction cl with
  | nil =>
    intro out h
    rw [encodeCodePoints_nil] at h
    simp at h
    subst h
    intro b hb
    simp at hb
  | cons cp rest ih =>
    intro out h
    rw [encodeCodePoints_cons] at h
    cases hc : encodeCodePoint mode cp with
    | err e => rw [hc] at h; simp at h
    | ok b =>
      rw [hc] at h
      cases hr : encodeCodePoints mode rest with
      | err e => rw [hr] at h; simp at h
      | ok bs =>
        rw [hr] at h
        simp at h
        subst h
        intro x hx
        rcases List.mem_cons.mp hx with hx | hx
        · subst hx; exact encodeCodePoint_ok_byte hc
        · exact ih bs hr x hx

theorem encodeList_ok_bytes {mode : Mode} (l : List Nat) :
    ∀ out, encodeList mode l = .ok out →
      ∀ b ∈ out, b ≤ 0xff ∧ b ∉ undefinedBytes :=
  fun out h => encodeCodePoints_ok_bytes (codePoints l) out h

theorem lookup_defined_isSome :
    ∀ b, b < 0xa0 → 0x80 ≤ b → b ∉ undefinedBytes →
      (List.lookup b WINDOWS_1252_MAP).isSome = true := by
  decide

theorem decodeOne_fatal_good {b : Nat} (hb : b ≤ 0xff)
    (hu : b ∉ undefinedBytes) : ∃ c, decodeOne .fatal (b : Int) = .ok c := by
  unfold decodeOne
  have h1 : ¬((b : Int) < 0 ∨ 255 < (b : Int)) := by omega
  rw [if_neg h1]
  have htn : (b : Int).toNat = b := Int.toNat_ofNat b
  by_cases h2 : b < 0x80
  · exact ⟨b, by simp [htn, h2]⟩
  · by_cases h3 : b ≤ 0x9f
    · have hs := lookup_defined_isSome b (by omega) (by omega) hu
      obtain ⟨cp, hcp⟩ := Option.isSome_iff_exists.mp hs
      exact ⟨cp, by simp [htn, h2, h3, hcp]⟩
    · exact ⟨b, by simp [htn, h2, h3]⟩

theorem decodeList_all_ok {mode : Mode} {bytes : List Int}
    (h : ∀ b ∈ bytes, ∃ c, decodeOne mode b = .ok c) :
    ∃ cs, decodeList mode bytes = .ok cs := by
  induction bytes with
  | nil => exact ⟨[], rfl⟩
  | cons x rest ih =>
    obtain ⟨c, hc⟩ := h x (List.mem_cons_self x rest)
    obtain ⟨cs, hcs⟩ := ih fun b hb => h b (List.mem_cons_of_mem _ hb)
    exact ⟨c :: cs, by simp [decodeList, hc, hcs]⟩

theorem decode_def (bytes : List Int) (m : Mode) :
    decode bytes { mode := some m } =
      match decodeList m bytes with
      | .err e => .err e
      | .ok chars => .ok (chars.map utf16OfCodePoint).flatten := rfl

theorem encode_def (l : List Nat) (m : Mode) :
    encode l { mode := some m } = encodeList m l := rfl

/-- C8: the decode and encode tables are exact inverses (every decode
entry (byte, codePoint) has the encode entry (codePoint, byte)), each
table has exactly 27 entries, and no two defined bytes decode to the same
code point. -/
theorem tables_exact_inverse :
    (∀ p ∈ WINDOWS_1252_MAP, List.lookup p.2 UNICODE_TO_WINDOWS_1252 = some p.1) ∧
    WINDOWS_1252_MAP.length = 27 ∧
    UNICODE_TO_WINDOWS_1252.length = 27 ∧
    (WINDOWS_1252_MAP.map Prod.snd).Nodup := by
  refine ⟨by decide, by decide, by decide, by decide⟩

theorem tables_exact_inverse_witness :
    List.lookup (0x80, 0x20ac).2 UNICODE_TO_WINDOWS_1252 = some (0x80, 0x20ac).1 :=
  tables_exact_inverse.1 (0x80, 0x20ac) (by decide)

/-- C9: with no options, decode uses replacement mode and encode uses
fatal mode: the optionless calls agree with the explicit-mode calls on
every input. -/
theorem default_modes :
    (∀ bytes : List Int, decode bytes = decode bytes { mode := some .replacement }) ∧
    (∀ str : List Nat, encode str = encode str { mode := some .fatal }) :=
  ⟨fun _ => rfl, fun _ => rfl⟩

/-- C4: every byte in [0x00, 0x7F] or [0xA0, 0xFF] decodes, in either
mode, to the single code point of the same numeric value. -/
theorem decode_identity_zones :
    ∀ (m : Mode) (b : Nat), b < 256 → (b < 0x80 ∨ 0xa0 ≤ b) →
      decode [(b : Int)] { mode := some m } = .ok [b] := by
  intro m
  cases m <;> decide

theorem decode_identity_zones_witness :
    decode [(0x41 : Int)] { mode := some .fatal } = .ok [0x41] :=
  decode_identity_zones .fatal 0x41 (by decide) (by decide)

/-- C1: for every byte b in [0, 255] other than the five undefined
values, encoding (in either mode) the replacement-mode decoding of [b]
returns [b] again. -/
theorem round_trip_single_byte :
    ∀ (m : Mode) (b : Nat), b < 256 → b ∉ undefinedBytes →
      encodeAfterDecode m [(b : Int)] = some [b] := by
  intro m
  cases m <;> decide

theorem round_trip_single_byte_witness :
    encodeAfterDecode .fatal [(0x80 : Int)] = some [0x80] :=
  round_trip_single_byte .fatal 0x80 (by decide) (by decide)

/-- C2: replacement-mode decode never fails on any integer input and
produces exactly one code point per input element, so the output length
equals the input length. -/
theorem decode_replacement_total :
    ∀ bytes : List Int, ∃ cps,
      decode bytes { mode := some .replacement } = .ok cps ∧
      cps.length = bytes.length := by
  intro bytes
  obtain ⟨cs, hcs, hlen, hbmp⟩ := decodeList_replacement_ok bytes
  refine ⟨cs, ?_, hlen⟩
  rw [decode_def, hcs]
  show JsResult.ok (cs.map utf16OfCodePoint).flatten = JsResult.ok cs
  rw [flatten_utf16 hbmp]

/-- C3: fatal-mode decode of one byte in [0x80, 0x9F] fails for exactly
the five undefined bytes, and the error message appends the byte in
two-digit uppercase hexadecimal after the literal 0x. -/
theorem decode_fatal_undefined_bytes :
    ∀ b : Nat, b < 0xa0 → 0x80 ≤ b →
      ((decode [(b : Int)] { mode := some .fatal }).isErr = true ↔
        b ∈ undefinedBytes) ∧
      (b ∈ undefinedBytes →
        decode [(b : Int)] { mode := some .fatal } =
          .err ("Invalid Windows-1252 byte: 0x" ++ String.mk (toHexUpper b)) ∧
        (toHexUpper b).length = 2 ∧
        ∀ ch ∈ toHexUpper b, ch ∈ upperHexChars) := by
  intro b hlt hge
  interval_cases b <;> decide

theorem decode_fatal_undefined_bytes_witness :
    (decode [(0x81 : Int)] { mode := some .fatal }).isErr = true ∧
    decode [(0x81 : Int)] { mode := some .fatal } =
      .err ("Invalid Windows-1252 byte: 0x" ++ String.mk (toHexUpper 0x81)) := by
  have h := decode_fatal_undefined_bytes 0x81 (by decide) (by decide)
  exact ⟨h.1.mpr (by decide), (h.2 (by decide)).1⟩

/-- C6: a decode input element outside [0, 255] makes fatal mode fail
with a message carrying the offending value and the range 0-255 (and any
input containing such an element fails), while replacement mode emits
U+FFFD at that element's position. -/
theorem decode_invalid_byte_value :
    ∀ b : Int, (b < 0 ∨ 255 < b) →
      decode [b] { mode := some .fatal } =
        .err ("Invalid byte value: " ++ toString b ++ " (must be 0-255)") ∧
      decode [b] { mode := some .replacement } = .ok [0xfffd] ∧
      (∀ bytes : List Int, b ∈ bytes →
        (decode bytes { mode := some .fatal }).isErr = true) ∧
      (∀ pre post : List Int, ∃ out1 out2,
        decode (pre ++ b :: post) { mode := some .replacement } =
          .ok (out1 ++ 0xfffd :: out2) ∧ out1.length = pre.length) := by
  intro b hb
  have hone : decodeOne .fatal b =
      .err ("Invalid byte value: " ++ toString b ++ " (must be 0-255)") := by
    unfold decodeOne
    rw [if_pos hb]
  have hrepl : decodeOne .replacement b = .ok 0xfffd := by
    unfold decodeOne
    rw [if_pos hb]
  refine ⟨?_, ?_, ?_, ?_⟩
  · have h1 : decodeList .fatal [b] =
        .err ("Invalid byte value: " ++ toString b ++ " (must be 0-255)") := by
      simp [decodeList, hone]
    rw [decode_def, h1]
  · have h1 : decodeList .replacement [b] = .ok [0xfffd] := by
      simp [decodeList, hrepl]
    rw [decode_def, h1]
    rfl
  · intro bytes hmem
    have herr := decodeList_fatal_err_of_mem hmem (by rw [hone]; rfl)
    rw [decode_def]
    cases h : decodeList .fatal bytes with
    | err e => rfl
    | ok cs => rw [h] at herr; simp [JsResult.isErr] at herr
  · intro pre post
    obtain ⟨as, has, halen, habmp⟩ := decodeList_replacement_ok pre
    obtain ⟨bs, hbs, _, hbbmp⟩ := decodeList_replacement_ok post
    have hmid : decodeList .replacement (b :: post) = .ok (0xfffd :: bs) := by
      simp [decodeList, hrepl, hbs]
    have hall : decodeList .replacement (pre ++ b :: post) = .ok (as ++ 0xfffd :: bs) :=
      decodeList_append has hmid
    have hbmp : ∀ c ∈ as ++ 0xfffd :: bs, c < 0x10000 := by
      intro c hc
      rcases List.mem_append.mp hc with h | h
      · exact habmp c h
      · rcases List.mem_cons.mp h with h | h
        · subst h; norm_num
        · exact hbbmp c h
    refine ⟨as, bs, ?_, halen⟩
    rw [decode_def, hall]
    show JsResult.ok ((as ++ 0xfffd :: bs).map utf16OfCodePoint).flatten = _
    rw [flatten_utf16 hbmp]

theorem decode_invalid_byte_value_witness :
    decode [(300 : Int)] { mode := some .fatal } =
      .err ("Invalid byte value: " ++ toString (300 : Int) ++ " (must be 0-255)") ∧
    decode [(300 : Int)] { mode := some .replacement } = .ok [0xfffd] := by
  have h := decode_invalid_byte_value 300 (by decide)
  exact ⟨h.1, h.2.1⟩

/-- C10: every byte encode emits, in either mode, is in [0, 255] and is
none of the five undefined bytes; hence a replacement-mode encode output
always decodes without error even in fatal decode mode. -/
theorem encode_output_always_decodable :
    (∀ (m : Mode) (units out : List Nat), encode units { mode := some m } = .ok out →
      ∀ b ∈ out, b ≤ 0xff ∧ b ∉ undefinedBytes) ∧
    (∀ units out : List Nat, encode units { mode := some .replacement } = .ok out →
      ∃ cps, decode (out.map Int.ofNat) { mode := some .fatal } = .ok cps) := by
  constructor
  · intro m units out h
    exact encodeList_ok_bytes units out h
  · intro units out h
    have hbytes := encodeList_ok_bytes units out h
    have hall : ∀ x ∈ out.map Int.ofNat, ∃ c, decodeOne .fatal x = .ok c := by
      intro x hx
      rcases List.mem_map.mp hx with ⟨b, hb, hxeq⟩
      obtain ⟨h1, h2⟩ := hbytes b hb
      rw [← hxeq]
      exact decodeOne_fatal_good h1 h2
    obtain ⟨cs, hcs⟩ := decodeList_all_ok hall
    refine ⟨(cs.map utf16OfCodePoint).flatten, ?_⟩
    rw [decode_def, hcs]

theorem encode_output_always_decodable_witness :
    (∀ b ∈ [0x80], b ≤ 0xff ∧ b ∉ undefinedBytes) ∧
    (∃ cps, decode ([0x80].map Int.ofNat) { mode := some .fatal } = .ok cps) :=
  ⟨encode_output_always_decodable.1 .replacement [0x20ac] [0x80] (by decide),
   encode_output_always_decodable.2 [0x20ac] [0x80] (by decide)⟩

theorem codePoints_cons_lone {u : Nat} {rest : List Nat}
    (h : (0xd800 ≤ u ∧ u ≤ 0xdbff ∧ startsWithLowSurrogate rest = false) ∨
      (0xdc00 ≤ u ∧ u ≤ 0xdfff)) :
    codePoints (u :: rest) = u :: codePoints rest := by
  cases rest with
  | nil => rfl
  | cons v rest2 =>
    have hns : ¬ isSurrogatePair u v = true := by
      intro hsp
      simp only [isSurrogatePair, Bool.and_eq_true, decide_eq_true_eq] at hsp
      rcases h with ⟨h1, h2, h3⟩ | ⟨h1, h2⟩
      · simp only [startsWithLowSurrogate, Bool.and_eq_false_iff,
          decide_eq_false_iff_not] at h3
        omega
      · omega
    rw [codePoints_cons2, if_neg hns]

/-- C5: the encoder iterates by code point: the surrogate pair of
U+1F60A encodes (replacement mode) to the single byte 0x3F; the
replacement-mode output length always equals the number of decoded
scalar values; and a lone surrogate consumes one unit, failing in fatal
mode and emitting exactly one 0x3F in replacement mode. -/
theorem encode_surrogate_handling :
    (encode [0xd83d, 0xde0a] { mode := some .replacement } = .ok [0x3f]) ∧
    (∀ units : List Nat, ∃ out,
      encode units { mode := some .replacement } = .ok out ∧
      out.length = (codePoints units).length) ∧
    (∀ (u : Nat) (rest : List Nat),
      (0xd800 ≤ u ∧ u ≤ 0xdbff ∧ startsWithLowSurrogate rest = false) ∨
        (0xdc00 ≤ u ∧ u ≤ 0xdfff) →
      encode (u :: rest) { mode := some .fatal } = .err (encodeErrorMessage u) ∧
      (∀ out, encode rest { mode := some .replacement } = .ok out →
        encode (u :: rest) { mode := some .replacement } = .ok (0x3f :: out))) := by
  refine ⟨by decide, ?_, ?_⟩
  · intro units
    exact encodeList_replacement_ok units
  · intro u rest h
    have hu1 : ¬ u < 0x80 := by rcases h with ⟨h1, _, _⟩ | ⟨h1, _⟩ <;> omega
    have hu2 : ¬ (0xa0 ≤ u ∧ u ≤ 0xff) := by
      rcases h with ⟨h1, _, _⟩ | ⟨h1, _⟩ <;> omega
    have hu3 : List.lookup u UNICODE_TO_WINDOWS_1252 = none := by
      apply surrogate_lookup_none
      rcases h with ⟨h1, _, _⟩ | ⟨h1, _⟩ <;> omega
    obtain ⟨hfat, hrep⟩ := encodeCodePoint_unencodable hu1 hu2 hu3
    have hcp := codePoints_cons_lone h
    constructor
    · show encodeCodePoints .fatal (codePoints (u :: rest)) = _
      rw [hcp, encodeCodePoints_cons, hfat]
    · intro out hout
      have hout2 : encodeCodePoints .replacement (codePoints rest) = .ok out := hout
      show encodeCodePoints .replacement (codePoints (u :: rest)) = _
      rw [hcp, encodeCodePoints_cons, hrep, hout2]

theorem encode_surrogate_handling_witness :
    encode [0xd800] { mode := some .fatal } = .err (encodeErrorMessage 0xd800) ∧
    encode [0xd800] { mode := some .replacement } = .ok [0x3f] := by
  have h := encode_surrogate_handling.2.2 0xd800 []
    (Or.inl ⟨by decide, by decide, by decide⟩)
  exact ⟨h.1, h.2 [] (by decide)⟩

/-- C7: every code point outside all three encodable zones makes encode
fail in fatal mode with a message containing the rendered character and
U+ followed by the uppercase hexadecimal code point padded to at least
four digits, and emit the single byte 0x3F in replacement mode. -/
theorem encode_unencodable :
    ∀ c : Nat, c ≤ 0x10ffff → ¬ c < 0x80 → ¬ (0xa0 ≤ c ∧ c ≤ 0xff) →
      List.lookup c UNICODE_TO_WINDOWS_1252 = none →
      encode (utf16OfCodePoint c) { mode := some .fatal } =
        .err (encodeErrorMessage c) ∧
      (∃ pre post, encodeErrorMessage c = pre ++ utf16OfCodePoint c ++ post) ∧
      (∃ pre post, encodeErrorMessage c =
        pre ++ (asciiUnits "U+" ++ (padStart4 (toHexUpper c)).map Char.toNat) ++ post) ∧
      4 ≤ (padStart4 (toHexUpper c)).length ∧
      (∀ ch ∈ padStart4 (toHexUpper c), ch ∈ upperHexChars) ∧
      encode (utf16OfCodePoint c) { mode := some .replacement } = .ok [0x3f] := by
  intro c hcle h1 h2 h3
  have hcp : codePoints (utf16OfCodePoint c) = [c] := by
    by_cases hsmall : c < 0x10000
    · unfold utf16OfCodePoint
      rw [if_pos hsmall]
      exact codePoints_one c
    · obtain ⟨hu, hp, hcomb⟩ := utf16_pair (by omega) hcle
      rw [hu, codePoints_cons2, if_pos hp, codePoints_nil, hcomb]
  obtain ⟨hfat, hrep⟩ := encodeCodePoint_unencodable h1 h2 h3
  refine ⟨?_, ?_, ?_, padStart4_length _, fun ch hch => hexPadded_mem ch hch, ?_⟩
  · show encodeCodePoints .fatal (codePoints (utf16OfCodePoint c)) = _
    rw [hcp, encodeCodePoints_cons, hfat]
  · refine ⟨asciiUnits "Character \x27",
      asciiUnits "\x27 (U+" ++ (padStart4 (toHexUpper c)).map Char.toNat ++
        asciiUnits ") cannot be encoded in Windows-1252", ?_⟩
    simp [encodeErrorMessage, List.append_assoc]
  · refine ⟨asciiUnits "Character \x27" ++ utf16OfCodePoint c ++ asciiUnits "\x27 (",
      asciiUnits ") cannot be encoded in Windows-1252", ?_⟩
    have hsplit : asciiUnits "\x27 (U+" = asciiUnits "\x27 (" ++ asciiUnits "U+" := by
      decide
    simp [encodeErrorMessage, hsplit, List.append_assoc]
  · show encodeCodePoints .replacement (codePoints (utf16OfCodePoint c)) = _
    rw [hcp, encodeCodePoints_cons, hrep]
    rfl

theorem encode_unencodable_witness :
    encode (utf16OfCodePoint 0x1f60a) { mode := some .fatal } =
      .err (encodeErrorMessage 0x1f60a) ∧
    encode (utf16OfCodePoint 0x1f60a) { mode := some .replacement } = .ok [0x3f] := by
  have h := encode_unencodable 0x1f60a (by decide) (by decide) (by decide) (by decide)
  exact ⟨h.1, h.2.2.2.2.2⟩
